import Mathlib

/-!
Verification of the promisify / capability-tree core of node-papi
(src/lib/tools.js): the tree-building introspector `walk`, the instance
patcher `promisify`, and the callback adapter `fromCallback`.

JavaScript objects are modelled as association lists with first-binding
lookup and overwrite-or-append assignment; machine details that the
claims do not touch (property enumerability flags, Unicode case mapping
beyond ASCII) are simplified accordingly.
-/

namespace Papi

/-! ### JavaScript object primitives -/

/-- Property lookup on a JS object: first binding wins. -/
def jsGet {α : Type} : List (String × α) → String → Option α
  | [], _ => none
  | p :: rest, k => if p.1 == k then some p.2 else jsGet rest k

/-- Property assignment on a JS object: overwrite in place when the key
exists (keeping its position, as JS objects do), append otherwise. -/
def jsSet {α : Type} : List (String × α) → String → α → List (String × α)
  | [], k, v => [(k, v)]
  | p :: rest, k, v => if p.1 == k then (k, v) :: rest else p :: jsSet rest k v

/-- `key.match(/^[a-z]+/)` is truthy iff the first character is an ASCII
lowercase letter. -/
def startsLower (s : String) : Bool :=
  match s.data with
  | [] => false
  | c :: _ => 'a' ≤ c && c ≤ 'z'

/-- `key.match(/^[A-Z]+/)` is truthy iff the first character is an ASCII
uppercase letter. -/
def startsUpper (s : String) : Bool :=
  match s.data with
  | [] => false
  | c :: _ => 'A' ≤ c && c ≤ 'Z'

/-- `key.toLowerCase()` (ASCII, which covers all identifier keys here). -/
def jsToLower (s : String) : String := ⟨s.data.map Char.toLower⟩

/-! ### Behavior definitions (the `obj` argument of `walk`)

A behavior definition is a constructor function: a `name`, a `prototype`
object mapping operation names to operation references (modelled as
numeric identifiers), an optional `meta` object mapping operation names
to entries with an optional `type` string, and the constructor's own
enumerable properties, whose uppercase-leading ones are nested behavior
definitions. -/

inductive JsDef : Type where
  | mk (name : String)
       (proto : List (String × Nat))
       (meta : Option (List (String × Option String)))
       (own : List (String × JsDef))

def JsDef.name : JsDef → String
  | .mk n _ _ _ => n

def JsDef.proto : JsDef → List (String × Nat)
  | .mk _ p _ _ => p

def JsDef.meta : JsDef → Option (List (String × Option String))
  | .mk _ _ m _ => m

def JsDef.own : JsDef → List (String × JsDef)
  | .mk _ _ _ o => o

/-- `meta[key] && meta[key].type || 'callback'`: the mode tag of an
operation, defaulting to `"callback"` when `obj.meta` is absent, the
entry is absent, or its `type` is falsy. -/
def metaType (meta : Option (List (String × Option String))) (k : String) :
    String :=
  match meta with
  | none => "callback"
  | some m =>
    match jsGet m k with
    | none => "callback"
    | some none => "callback"
    | some (some t) => if t == "" then "callback" else t

/-! ### Capability trees (the output of `walk`) -/

/-- A method descriptor: `\x7b name, value, type \x7d`. -/
structure MethodDesc where
  name : String
  value : Nat
  type : String
deriving DecidableEq, Repr

/-- A capability-tree node: `\x7b name, value?, methods?, objects? \x7d`.
The `methods` and `objects` fields are created lazily by `walk`, so
`none` models an absent field — distinct from an empty map. `value` is
present exactly on the nested nodes `walk` allocates for uppercase
properties. -/
inductive CapTree : Type where
  | node (name : String)
         (value : Option JsDef)
         (methods : Option (List (String × MethodDesc)))
         (objects : Option (List (String × CapTree)))

def CapTree.name : CapTree → String
  | .node n _ _ _ => n

def CapTree.value : CapTree → Option JsDef
  | .node _ v _ _ => v

def CapTree.methods : CapTree → Option (List (String × MethodDesc))
  | .node _ _ m _ => m

def CapTree.objects : CapTree → Option (List (String × CapTree))
  | .node _ _ _ o => o

/-! ### `walk` -/

/-- One iteration of the first `forEach` in `walk`: for a prototype key
and its value, skip unless lowercase-leading, otherwise ensure
`tree.methods` exists and assign the descriptor, with its mode tag read
from the definition's `meta`. -/
def methodStepP (meta : Option (List (String × Option String)))
    (t : CapTree) (key : String) (v : Nat) : CapTree :=
  if !startsLower key then t
  else
    match t with
    | .node n val ms os =>
      .node n val (some (jsSet (ms.getD []) key ⟨key, v, metaType meta key⟩)) os

/-- The first `forEach` of `walk`: record a MethodDescriptor for every
lowercase-leading prototype key. -/
def methodsPhase (meta : Option (List (String × Option String)))
    (proto : List (String × Nat)) (t : CapTree) : CapTree :=
  proto.foldl (fun t kv => methodStepP meta t kv.1 kv.2) t

mutual

/-- The body of `walk` at a given tree accumulator (the code after the
arity `switch`): the methods pass over `obj.prototype`, then the objects
pass over the definition's own keys. -/
def walkDef : JsDef → CapTree → CapTree
  | .mk _ proto meta own, tree => walkOwn own (methodsPhase meta proto tree)

/-- The second `forEach` of `walk`: for every uppercase-leading own key,
ensure `tree.objects` exists, allocate the node `\x7b name, value \x7d`,
and recurse into the nested definition with that node as accumulator. -/
def walkOwn : List (String × JsDef) → CapTree → CapTree
  | [], t => t
  | (key, v) :: rest, t =>
    if startsUpper key then
      walkOwn rest
        (match t with
         | .node n val ms os =>
           .node n val ms
             (some (jsSet (os.getD []) key
               (walkDef v (.node key (some v) none none)))))
    else walkOwn rest t

end

/-- The call shapes of `walk`, by arity: `arguments.length` 1, 2, 3, or
anything else. -/
inductive WalkArgs where
  | a1 (obj : JsDef)
  | a2 (obj : JsDef) (name : String)
  | a3 (obj : JsDef) (name : String) (tree : CapTree)
  | badArity (n : Nat)

/-- `walk` including its arity `switch`: arity 1 takes the name from
`obj.name` and allocates a fresh tree, arity 2 allocates a fresh tree
with the given name, arity 3 populates the given tree, and any other
arity throws `Error('invalid arguments')`. -/
def walkCall : WalkArgs → Except String CapTree
  | .a1 obj => .ok (walkDef obj (.node obj.name none none none))
  | .a2 obj nm => .ok (walkDef obj (.node nm none none none))
  | .a3 obj _ t => .ok (walkDef obj t)
  | .badArity _ => .error "invalid arguments"

/-! ### The patcher (`promisify` and its inner `patch`)

A live client value: `undefined`, a function-valued property (an
operation, identified numerically), a plain object with enumerable
properties, or a property already replaced by the dual-mode wrapper over
its original value. The wrapper's call behaviour is modelled separately
below; here `wrapped` only records the in-place mutation `patch`
performs. -/

inductive CVal : Type where
  | undefined
  | fnv (id : Nat)
  | obj (fields : List (String × CVal))
  | wrapped (orig : CVal)

/-- The exceptions the patcher can raise: a `TypeError` from touching
`undefined`, or an `Error(msg)` thrown explicitly by the source. -/
inductive JsError : Type where
  | typeError (msg : String)
  | errorMsg (msg : String)
deriving DecidableEq, Repr

/-- Property read `client[k]`: throws a TypeError on `undefined`; on an
object it is the bound value or `undefined`; function objects and
wrappers carry no modelled own properties, so reads on them yield
`undefined` without throwing. -/
def cvalGet : CVal → String → Except JsError CVal
  | .undefined, _ => .error (.typeError "Cannot read properties of undefined")
  | .obj fs, k => .ok ((jsGet fs k).getD .undefined)
  | .fnv _, _ => .ok .undefined
  | .wrapped _, _ => .ok .undefined

/-- Property write `client[k] = v` on an object. Writes on non-object
hosts are left as the identity: in `patch`, every write is preceded on
the same host by a read, so an `undefined` host has already thrown, and
the modelled client shapes place only objects at the patched positions. -/
def cvalSet : CVal → String → CVal → CVal
  | .obj fs, k, v => .obj (jsSet fs k v)
  | c, _, _ => c

/-- JS truthiness of a client value: only `undefined` (the modelled
absent value) is falsy. -/
def cvalTruthy : CVal → Bool
  | .undefined => false
  | _ => true

/-- The first `forEach` of `patch`: for each method descriptor, read
`client[method.name]` (a TypeError when `client` is `undefined`), and
when the mode tag is `"callback"`, replace the property with the
dual-mode wrapper over the original. -/
def patchMethods (client : CVal) :
    List (String × MethodDesc) → Except JsError CVal
  | [] => .ok client
  | (_, m) :: rest =>
    match cvalGet client m.name with
    | .error e => .error e
    | .ok fn =>
      patchMethods
        (if m.type == "callback" then cvalSet client m.name (.wrapped fn)
         else client) rest

mutual

/-- The inner `patch` of `promisify`: `Object.keys(tree.methods)` throws
a TypeError when the `methods` field is absent; otherwise wrap each
callback-mode method, then recurse through `tree.objects` (when present)
against the live sub-instance at each lower-cased accessor. -/
def patchRun (client : CVal) : CapTree → Except JsError CVal
  | .node _ _ none _ =>
    .error (.typeError "Cannot convert undefined or null to object")
  | .node _ _ (some ms) os =>
    match patchMethods client ms with
    | .error e => .error e
    | .ok client2 =>
      match os with
      | none => .ok client2
      | some osl => patchObjects client2 osl

/-- The second `forEach` of `patch`: read `client[key.toLowerCase()]`
(a TypeError when `client` is `undefined`), patch that sub-value against
the subtree, and store the result back (the source mutates the
sub-instance through the shared reference). -/
def patchObjects (client : CVal) :
    List (String × CapTree) → Except JsError CVal
  | [] => .ok client
  | (key, sub) :: rest =>
    match cvalGet client (jsToLower key) with
    | .error e => .error e
    | .ok sv =>
      match patchRun sv sub with
      | .error e => .error e
      | .ok sv2 => patchObjects (cvalSet client (jsToLower key) sv2) rest

end

/-- `promisify(client)`: throws `Error('client required')` on a falsy
client, otherwise builds the capability tree from the client's
constructor with `walk` at arity 1 and patches the client against it.
The optional `wrapCallback` parameter only selects the adapter used
inside the wrapper, whose call behaviour is modelled separately, so it
does not appear here. -/
def promisifyRun (client : CVal) (ctor : JsDef) : Except JsError CVal :=
  if !cvalTruthy client then .error (.errorMsg "client required")
  else
    match walkCall (.a1 ctor) with
    | .ok t => patchRun client t
    | .error e => .error (.errorMsg e)

/-! ### The dual-mode wrapper and `fromCallback`

The call behaviour of a patched operation. An operation is abstracted as
a function from its full argument list (including any trailing callback)
to what it does: throw synchronously before touching its callback,
invoke its trailing callback once with `(err, data)`, or return without
ever invoking it. -/

inductive JsVal : Type where
  | undefined
  | nullv
  | boolv (b : Bool)
  | numv (n : Int)
  | strv (s : String)
  | fnRef (id : Nat)
deriving DecidableEq, Repr

/-- `typeof v === 'function'`. -/
def isFunctionTy : JsVal → Bool
  | .fnRef _ => true
  | _ => false

/-- JS truthiness on the modelled values. -/
def jsTruthy : JsVal → Bool
  | .undefined => false
  | .nullv => false
  | .boolv b => b
  | .numv n => !(n == 0)
  | .strv s => !(s == "")
  | .fnRef _ => true

/-- What a callback-style operation does on a given call. -/
inductive OpBehavior : Type where
  | throwsBefore (e : JsVal)
  | callsBack (err data : JsVal)
  | noCall
deriving DecidableEq, Repr

/-- The state of the future `fromCallback` returns. -/
inductive Settlement : Type where
  | resolved (v : JsVal)
  | rejected (e : JsVal)
  | pending
deriving DecidableEq, Repr

/-- The callback value that `fromCallback` constructs and passes to its
argument (`function(err, data) ...`). -/
def adapterCb : JsVal := .fnRef 0

/-- `fromCallback(fn)`: run `fn` on the constructed callback inside
`try`; a synchronous throw rejects with the thrown value (the `catch`
clause); a callback invocation with truthy `err` rejects with `err`,
otherwise resolves with `data`; if the callback is never invoked the
future stays pending. -/
def fromCallback (fn : JsVal → OpBehavior) : Settlement :=
  match fn adapterCb with
  | .throwsBefore e => .rejected e
  | .callsBack err data => if jsTruthy err then .rejected err else .resolved data
  | .noCall => .pending

/-- The observable effect of one call: a synchronous exception
propagated to the caller, an invocation of the trailing callback of the
argument list with `(err, data)`, and/or a returned future. -/
structure CallEffect where
  thrown : Option JsVal
  cbCall : Option (JsVal × JsVal)
  future : Option Settlement
deriving DecidableEq, Repr

/-- The effect of directly invoking an operation: its throw escapes, its
callback invocation reaches the trailing callback of the supplied
arguments, and no future is involved. -/
def effectOf : OpBehavior → CallEffect
  | .throwsBefore e => ⟨some e, none, none⟩
  | .callsBack e d => ⟨none, some (e, d), none⟩
  | .noCall => ⟨none, none, none⟩

/-- `arguments[arguments.length - 1]`: the last supplied argument, or
`undefined` when none were supplied. -/
def lastArgument (args : List JsVal) : JsVal := args.getLastD .undefined

/-- Calling the unpatched original operation on the instance. -/
def origCall (fn : List JsVal → OpBehavior) (args : List JsVal) : CallEffect :=
  effectOf (fn args)

/-- Calling the dual-mode wrapper `patch` installs: when the last
supplied argument is a function, `return fn.apply(client, arguments)` —
the original runs on the identical argument list, with no `try` around
it; otherwise slice the arguments and return the adapter applied to the
one-argument function that pushes the received callback onto the sliced
arguments and forwards to the original (default adapter:
`fromCallback`). -/
def patchedCall (fn : List JsVal → OpBehavior) (args : List JsVal) : CallEffect :=
  if isFunctionTy (lastArgument args) then effectOf (fn args)
  else ⟨none, none, some (fromCallback (fun cb => fn (args ++ [cb])))⟩

/-! ### A heap-level embedding of `walk`

To state that `build` does not mutate the definition it introspects, the
same source function is embedded once more against an explicit mutable
heap: objects are heap cells addressed by allocation order, property
reads and writes go through the heap, and `walk`'s tree allocations and
field assignments are the only writes. Recursion through heap references
is not structurally decreasing, so the walker takes fuel and returns
`none` when the fuel runs out or a visited value is not walkable. -/

abbrev Addr := Nat

/-- A heap value: `undefined`, a string, a function reference (an
operation), or a reference to another heap object. -/
inductive HVal : Type where
  | undefined
  | hstr (s : String)
  | hfn (id : Nat)
  | ref (a : Addr)
deriving DecidableEq, Repr

abbrev HObj := List (String × HVal)

abbrev Heap := List HObj

/-- Read a heap object; a dangling address reads as an empty object
(it is never written through). -/
def hgetObj (h : Heap) (a : Addr) : HObj := (h.get? a).getD []

/-- Property read on a heap object: absent keys read as `undefined`. -/
def oget (o : HObj) (k : String) : HVal := (jsGet o k).getD .undefined

/-- Property write `o[k] = v` at address `a`. -/
def hwrite (h : Heap) (a : Addr) (k : String) (v : HVal) : Heap :=
  h.set a (jsSet (hgetObj h a) k v)

/-- Allocate a fresh object, returning the new heap and its address. -/
def halloc (h : Heap) (o : HObj) : Heap × Addr := (h ++ [o], h.length)

/-- JS truthiness of a heap value. -/
def truthyHV : HVal → Bool
  | .undefined => false
  | .hstr s => !(s == "")
  | .hfn _ => true
  | .ref _ => true

/-- `if (!tree.methods) tree.methods = \x7b\x7d` followed by using
`tree.methods` as an object: reuse the existing map when the field holds
a reference, otherwise allocate an empty object and store it in the
field. -/
def ensureMap (h : Heap) (treeA : Addr) (field : String) : Heap × Addr :=
  match oget (hgetObj h treeA) field with
  | .ref a => (h, a)
  | _ =>
    let al := halloc h []
    (hwrite al.1 treeA field (.ref al.2), al.2)

/-- One iteration of the first `forEach` of `walk` on the heap: skip
keys that are not lowercase-leading; otherwise ensure `tree.methods`,
allocate the descriptor with `name` and `value`, link it into the map,
and set its `type` from `obj.meta`. -/
def methodStepH (h : Heap) (objA pA treeA : Addr) (key : String) : Heap :=
  let v := oget (hgetObj h pA) key
  if !startsLower key then h
  else
    let em := ensureMap h treeA "methods"
    let ad := halloc em.1 [("name", .hstr key), ("value", v)]
    let h3 := hwrite ad.1 em.2 key (.ref ad.2)
    let metaObj : HObj :=
      match oget (hgetObj h3 objA) "meta" with
      | .ref a => hgetObj h3 a
      | _ => []
    let ty : HVal :=
      match oget metaObj key with
      | .ref eA =>
        let t := oget (hgetObj h3 eA) "type"
        if truthyHV t then t else .hstr "callback"
      | _ => .hstr "callback"
    hwrite h3 ad.2 "type" ty

/-- The non-recursive prefix of one iteration of the second `forEach` of
`walk` on the heap, for an uppercase-leading key: read `obj[key]`,
ensure `tree.objects`, allocate the node with `name` and `value` and
link it into the map. Returns the new heap, the read value (the nested
definition reference) and the address of the allocated node. -/
def objPrepH (h : Heap) (objA treeA : Addr) (key : String) :
    Heap × HVal × Addr :=
  let v := oget (hgetObj h objA) key
  let eo := ensureMap h treeA "objects"
  let an := halloc eo.1 [("name", .hstr key), ("value", v)]
  (hwrite an.1 eo.2 key (.ref an.2), v, an.2)

/-- The control points of `walk` on the heap: the body after the arity
switch, or the second `forEach` with its remaining snapshot of own
keys. -/
inductive WTask : Type where
  | body (objA treeA : Addr)
  | objsPass (objA treeA : Addr) (keys : List String)

/-- `walk` at arity 3 on the heap. `body`: enumerate `obj.prototype` (a
`TypeError`, modelled as `none`, when it is not an object), run the
methods pass, then move to the objects pass over a snapshot of the
definition's own keys. `objsPass`: for every uppercase-leading own key,
ensure `tree.objects`, allocate the node with `name` and `value`, link
it in, and recurse into the referenced nested definition (a
non-reference value is not walkable: `none`). Fuel only bounds the
recursion depth so that the function is total; it is consumed on every
step. -/
def walkHF : Nat → Heap → WTask → Option Heap
  | 0, _, _ => none
  | fuel + 1, h, .body objA treeA =>
    match oget (hgetObj h objA) "prototype" with
    | .ref pA =>
      let keys := (hgetObj h pA).map Prod.fst
      let h1 := keys.foldl (fun h key => methodStepH h objA pA treeA key) h
      walkHF fuel h1 (.objsPass objA treeA ((hgetObj h1 objA).map Prod.fst))
    | _ => none
  | _ + 1, h, .objsPass _ _ [] => some h
  | fuel + 1, h, .objsPass objA treeA (key :: rest) =>
    if startsUpper key then
      match (objPrepH h objA treeA key).2.1 with
      | .ref vA =>
        match walkHF fuel (objPrepH h objA treeA key).1
            (.body vA (objPrepH h objA treeA key).2.2) with
        | some h4 => walkHF fuel h4 (.objsPass objA treeA rest)
        | none => none
      | _ => none
    else walkHF fuel h (.objsPass objA treeA rest)

/-- `walk(obj)` at arity 1 on the heap: a fresh tree whose `name` is
`obj.name`, then the arity-3 body. -/
def buildH1 (fuel : Nat) (h : Heap) (defA : Addr) : Option (Heap × Addr) :=
  let nameV := oget (hgetObj h defA) "name"
  let al := halloc h [("name", nameV)]
  match walkHF fuel al.1 (.body defA al.2) with
  | some h2 => some (h2, al.2)
  | none => none

/-- `walk(obj, name)` at arity 2 on the heap: a fresh tree with the
given name, then the arity-3 body. -/
def buildH2 (fuel : Nat) (h : Heap) (defA : Addr) (nm : String) :
    Option (Heap × Addr) :=
  let al := halloc h [("name", .hstr nm)]
  match walkHF fuel al.1 (.body defA al.2) with
  | some h2 => some (h2, al.2)
  | none => none

/-- The frame relation: the heap only grows, and every cell below `lo`
is untouched. -/
def Preserves (lo : Nat) (h h2 : Heap) : Prop :=
  h.length ≤ h2.length ∧ ∀ a, a < lo → h2.get? a = h.get? a

/-- A field value that cannot point below `lo`. -/
def FieldHigh (lo : Nat) (v : HVal) : Prop := ∀ a, v = .ref a → lo ≤ a

/-- A tree node all of whose lazily created map fields stay at or above
`lo`: the walker only ever hangs freshly allocated maps off a tree
node. -/
def TreeGood (lo : Nat) (h : Heap) (treeA : Addr) : Prop :=
  FieldHigh lo (oget (hgetObj h treeA) "methods") ∧
  FieldHigh lo (oget (hgetObj h treeA) "objects")

/-- A heap step that respects the frame below `lo` and keeps every good
tree node good. -/
def GoodStep (lo : Nat) (h h2 : Heap) : Prop :=
  Preserves lo h h2 ∧ ∀ a, TreeGood lo h a → TreeGood lo h2 a

/-- A small well-formed demo definition exercising every discovery case:
a lowercase operation, an ignored underscore name, an uppercase
prototype key, a nested capability and an ignored lowercase own key. -/
def demoDefC3 : JsDef :=
  .mk "C" [("get", 1), ("_req", 2), ("Foo", 3)] none
    [("Inner", .mk "Inner" [("fetch", 4)] none []),
     ("misc", .mk "M" [] none [])]

/-- A small demonstration heap: a definition at address 0 with prototype
at 1 and a nested `Sub` definition at 2 with prototype at 3. -/
def demoHeap : Heap :=
  [ [("name", .hstr "C"), ("prototype", .ref 1), ("Sub", .ref 2)],
    [("get", .hfn 1)],
    [("name", .hstr "Sub"), ("prototype", .ref 3)],
    [("fetch", .hfn 2)] ]

def demoRes1 : Heap × Addr := (buildH1 9 demoHeap 0).getD ([], 0)

def demoRes2 : Heap × Addr := (buildH2 9 demoHeap 0 "N").getD ([], 0)

/-! ## Shared lemmas -/

theorem jsSet_of_not_mem {α : Type} (m : List (String × α)) (k : String)
    (v : α) (h : k ∉ m.map Prod.fst) : jsSet m k v = m ++ [(k, v)] := by
  induction m with
  | nil => rfl
  | cons p rest ih =>
    simp only [List.map_cons, List.mem_cons] at h
    push_neg at h
    simp only [jsSet, List.cons_append]
    rw [if_neg (by simp only [beq_iff_eq]; exact fun hh => h.1 hh.symm),
      ih h.2]

theorem jsSet_ne_nil {α : Type} (m : List (String × α)) (k : String)
    (v : α) : jsSet m k v ≠ [] := by
  cases m with
  | nil => simp [jsSet]
  | cons p rest =>
    simp only [jsSet]
    split <;> simp

theorem jsGet_jsSet_ne {α : Type} (m : List (String × α)) (k k' : String)
    (v : α) (h : k' ≠ k) : jsGet (jsSet m k v) k' = jsGet m k' := by
  induction m with
  | nil => simp [jsSet, jsGet, h.symm]
  | cons p rest ih =>
    simp only [jsSet]
    by_cases hp : p.1 = k
    · rw [if_pos (by simpa using hp)]
      simp [jsGet, hp, h.symm]
    · rw [if_neg (by simpa using hp)]
      simp only [jsGet, ih]

/-! ## Lemmas about `walk` -/

/-- The keys of the `methods` map of a tree node (an absent map has no
keys). -/
def methodKeys (t : CapTree) : List String := (t.methods.getD []).map Prod.fst

/-- The keys of the `objects` map of a tree node (an absent map has no
keys). -/
def objectKeys (t : CapTree) : List String := (t.objects.getD []).map Prod.fst

theorem methodStepP_name (meta : Option (List (String × Option String)))
    (t : CapTree) (key : String) (v : Nat) :
    (methodStepP meta t key v).name = t.name := by
  cases t with
  | node n val ms os =>
    simp only [methodStepP]
    split <;> rfl

theorem methodStepP_objects (meta : Option (List (String × Option String)))
    (t : CapTree) (key : String) (v : Nat) :
    (methodStepP meta t key v).objects = t.objects := by
  cases t with
  | node n val ms os =>
    simp only [methodStepP]
    split <;> rfl

theorem methodsPhase_name (meta : Option (List (String × Option String))) :
    ∀ (l : List (String × Nat)) (t : CapTree),
    (methodsPhase meta l t).name = t.name := by
  intro l
  induction l with
  | nil => intro t; rfl
  | cons kv rest ih =>
    intro t
    show (methodsPhase meta rest (methodStepP meta t kv.1 kv.2)).name = t.name
    rw [ih, methodStepP_name]

theorem methodsPhase_objects
    (meta : Option (List (String × Option String))) :
    ∀ (l : List (String × Nat)) (t : CapTree),
    (methodsPhase meta l t).objects = t.objects := by
  intro l
  induction l with
  | nil => intro t; rfl
  | cons kv rest ih =>
    intro t
    show (methodsPhase meta rest (methodStepP meta t kv.1 kv.2)).objects
        = t.objects
    rw [ih, methodStepP_objects]

theorem walkOwn_name : ∀ (l : List (String × JsDef)) (t : CapTree),
    (walkOwn l t).name = t.name := by
  intro l
  induction l with
  | nil => intro t; rfl
  | cons kv rest ih =>
    intro t
    obtain ⟨key, v⟩ := kv
    cases t with
    | node n val ms os =>
      simp only [walkOwn]
      split
      · rw [ih]; rfl
      · rw [ih]

theorem walkOwn_methods : ∀ (l : List (String × JsDef)) (t : CapTree),
    (walkOwn l t).methods = t.methods := by
  intro l
  induction l with
  | nil => intro t; rfl
  | cons kv rest ih =>
    intro t
    obtain ⟨key, v⟩ := kv
    cases t with
    | node n val ms os =>
      simp only [walkOwn]
      split
      · rw [ih]; rfl
      · rw [ih]

theorem walkDef_name (d : JsDef) (t : CapTree) :
    (walkDef d t).name = t.name := by
  cases d with
  | mk n p m o =>
    show (walkOwn o (methodsPhase m p t)).name = t.name
    rw [walkOwn_name, methodsPhase_name]

theorem walkDef_methods (d : JsDef) (t : CapTree) :
    (walkDef d t).methods = (methodsPhase d.meta d.proto t).methods := by
  cases d with
  | mk n p m o =>
    show (walkOwn o (methodsPhase m p t)).methods = _
    rw [walkOwn_methods]
    rfl

/-- The methods pass appends exactly the lowercase-leading prototype keys
to the method map, provided the prototype keys are distinct (as
`Object.keys` guarantees) and none of them is already a method key. -/
theorem methodsPhase_keys (meta : Option (List (String × Option String))) :
    ∀ (l : List (String × Nat)) (t : CapTree),
    (l.map Prod.fst).Nodup →
    (∀ k ∈ methodKeys t, k ∉ l.map Prod.fst) →
    methodKeys (methodsPhase meta l t) =
      methodKeys t ++ (l.map Prod.fst).filter startsLower := by
  intro l
  induction l with
  | nil => intro t _ _; simp [methodsPhase]
  | cons kv rest ih =>
    intro t hnd hfresh
    obtain ⟨key, v⟩ := kv
    simp only [List.map_cons, List.nodup_cons] at hnd
    have hkt : key ∉ methodKeys t := fun hk => by
      have := hfresh key hk
      simp at this
    show methodKeys (methodsPhase meta rest (methodStepP meta t key v)) = _
    by_cases hl : startsLower key
    · have hstep : methodKeys (methodStepP meta t key v)
          = methodKeys t ++ [key] := by
        cases t with
        | node n val ms os =>
          simp only [methodStepP, hl, Bool.not_true, Bool.false_eq_true,
            if_false]
          show ((jsSet (ms.getD []) key _).map Prod.fst) = _
          rw [jsSet_of_not_mem (ms.getD []) key _ hkt]
          simp [methodKeys, CapTree.methods]
      rw [ih (methodStepP meta t key v) hnd.2 ?_]
      · rw [hstep, List.map_cons, List.filter_cons_of_pos hl,
          List.append_assoc]
        rfl
      · intro k hk
        rw [hstep] at hk
        rcases List.mem_append.mp hk with hk | hk
        · intro hmem
          exact hfresh k hk (List.mem_cons_of_mem _ hmem)
        · simp only [List.mem_singleton] at hk
          subst hk
          exact hnd.1
    · have hstep : methodStepP meta t key v = t := by
        cases t with
        | node n val ms os =>
          simp only [methodStepP, hl]
          rfl
      rw [hstep, ih t hnd.2 (fun k hk =>
        fun hm => hfresh k hk (List.mem_cons_of_mem _ hm))]
      rw [List.map_cons, List.filter_cons_of_neg (by simpa using hl)]

/-- The objects pass appends exactly the uppercase-leading own keys to
the object map, under the same distinctness provisos. -/
theorem walkOwn_keys : ∀ (l : List (String × JsDef)) (t : CapTree),
    (l.map Prod.fst).Nodup →
    (∀ k ∈ objectKeys t, k ∉ l.map Prod.fst) →
    objectKeys (walkOwn l t) =
      objectKeys t ++ (l.map Prod.fst).filter startsUpper := by
  intro l
  induction l with
  | nil => intro t _ _; simp [walkOwn]
  | cons kv rest ih =>
    intro t hnd hfresh
    obtain ⟨key, v⟩ := kv
    simp only [List.map_cons, List.nodup_cons] at hnd
    have hkt : key ∉ objectKeys t := fun hk => by
      have := hfresh key hk
      simp at this
    cases t with
    | node n val ms os =>
      simp only [walkOwn]
      by_cases hu : startsUpper key
      · rw [if_pos hu]
        have hstep : objectKeys (CapTree.node n val ms
            (some (jsSet (os.getD []) key
              (walkDef v (.node key (some v) none none)))))
            = objectKeys (CapTree.node n val ms os) ++ [key] := by
          show ((jsSet (os.getD []) key _).map Prod.fst) = _
          rw [jsSet_of_not_mem (os.getD []) key _ hkt]
          simp [objectKeys, CapTree.objects]
        rw [ih _ hnd.2 ?_]
        · rw [hstep, List.map_cons, List.filter_cons_of_pos hu,
            List.append_assoc]
          rfl
        · intro k hk
          rw [hstep] at hk
          rcases List.mem_append.mp hk with hk | hk
          · intro hmem
            exact hfresh k hk (List.mem_cons_of_mem _ hmem)
          · simp only [List.mem_singleton] at hk
            subst hk
            exact hnd.1
      · rw [if_neg hu]
        rw [ih _ hnd.2 (fun k hk =>
          fun hm => hfresh k hk (List.mem_cons_of_mem _ hm))]
        rw [List.map_cons, List.filter_cons_of_neg (by simpa using hu)]

/-! ## C3, C7: the key sets and the arity contract of `build` -/

/-- C3: for a well-formed definition (distinct prototype keys and
distinct own keys, as `Object.keys` of real JS objects always yields),
the tree built by `walk` at arity 1 has `methods` keys exactly the
lowercase-leading prototype keys and `objects` keys exactly the
uppercase-leading own-property keys — no extras, no omissions; all other
names are ignored. -/
theorem build_key_sets (d : JsDef) (t : CapTree)
    (hp : (d.proto.map Prod.fst).Nodup)
    (ho : (d.own.map Prod.fst).Nodup)
    (ht : walkCall (.a1 d) = Except.ok t) :
    methodKeys t = (d.proto.map Prod.fst).filter startsLower ∧
    objectKeys t = (d.own.map Prod.fst).filter startsUpper := by
  cases d with
  | mk n p m o =>
    have ht' : walkDef (JsDef.mk n p m o)
        (.node (JsDef.mk n p m o).name none none none) = t := by
      simpa [walkCall] using ht
    subst ht'
    simp only [JsDef.proto, JsDef.own] at hp ho ⊢
    have hfreshM : methodKeys
        (CapTree.node (JsDef.mk n p m o).name none none none) = [] := rfl
    have hfreshO : objectKeys
        (CapTree.node (JsDef.mk n p m o).name none none none) = [] := rfl
    constructor
    · show methodKeys (walkOwn o (methodsPhase m p _)) = _
      rw [show ∀ t', methodKeys (walkOwn o t') = methodKeys t' from
        fun t' => by simp [methodKeys, walkOwn_methods]]
      rw [methodsPhase_keys m p _ hp (by rw [hfreshM]; intro k hk; cases hk)]
      rw [hfreshM, List.nil_append]
    · show objectKeys (walkOwn o (methodsPhase m p _)) = _
      have hObjPhase : objectKeys (methodsPhase m p
          (CapTree.node (JsDef.mk n p m o).name none none none)) = [] := by
        simp only [objectKeys, methodsPhase_objects]
        rw [show (CapTree.node (JsDef.mk n p m o).name none
          none none).objects = none from rfl]
        rfl
      rw [walkOwn_keys o _ ho (by rw [hObjPhase]; intro k hk; cases hk)]
      rw [hObjPhase, List.nil_append]

theorem build_key_sets_witness :
    methodKeys (walkDef demoDefC3
      (CapTree.node demoDefC3.name none none none)) = ["get"] ∧
    objectKeys (walkDef demoDefC3
      (CapTree.node demoDefC3.name none none none)) = ["Inner"] := by
  have h := build_key_sets demoDefC3 _ (by decide) (by decide) rfl
  exact ⟨h.1.trans (by decide), h.2.trans (by decide)⟩

/-- C7: `walk` accepts exactly arity 1, 2 or 3 — any other arity fails
with `Error('invalid arguments')` — and the root name of the built tree
is the definition's declared name at arity 1 and the supplied name at
arity 2. -/
theorem walk_arity_contract (d : JsDef) (nm : String) (t : CapTree)
    (n : Nat) :
    walkCall (.badArity n) = Except.error "invalid arguments" ∧
    (∃ r, walkCall (.a1 d) = Except.ok r ∧ r.name = d.name) ∧
    (∃ r, walkCall (.a2 d nm) = Except.ok r ∧ r.name = nm) ∧
    (∃ r, walkCall (.a3 d nm t) = Except.ok r) := by
  refine ⟨rfl, ⟨_, rfl, ?_⟩, ⟨_, rfl, ?_⟩, ⟨_, rfl⟩⟩
  · rw [walkDef_name]; rfl
  · rw [walkDef_name]; rfl

/-! ## Lemmas about `patch` -/

/-- The methods pass of `patch` never fails on a live object: every
property read succeeds, and wrapping only reassigns properties. The
resulting object agrees with the original on every key that is not one
of the processed method names. -/
theorem patchMethods_obj : ∀ (ms : List (String × MethodDesc))
    (fields : List (String × CVal)),
    ∃ fields2, patchMethods (CVal.obj fields) ms =
        Except.ok (CVal.obj fields2) ∧
      ∀ k, (∀ p ∈ ms, p.2.name ≠ k) → jsGet fields2 k = jsGet fields k := by
  intro ms
  induction ms with
  | nil => intro fields; exact ⟨fields, rfl, fun k _ => rfl⟩
  | cons pm rest ih =>
    intro fields
    obtain ⟨key0, m⟩ := pm
    by_cases htype : (m.type == "callback") = true
    · obtain ⟨f2, hrun, hget⟩ :=
        ih (jsSet fields m.name (.wrapped ((jsGet fields m.name).getD .undefined)))
      refine ⟨f2, ?_, ?_⟩
      · show patchMethods (CVal.obj fields) ((key0, m) :: rest) = _
        simp only [patchMethods, cvalGet, cvalSet, htype, if_true]
        exact hrun
      · intro k hk
        rw [hget k (fun p hp => hk p (List.mem_cons_of_mem _ hp)),
          jsGet_jsSet_ne _ _ _ _
            (fun he => hk (key0, m) (List.mem_cons_self _ _) he.symm)]
    · obtain ⟨f2, hrun, hget⟩ := ih fields
      refine ⟨f2, ?_, ?_⟩
      · show patchMethods (CVal.obj fields) ((key0, m) :: rest) = _
        simp only [patchMethods, cvalGet, htype, if_false]
        exact hrun
      · intro k hk
        exact hget k (fun p hp => hk p (List.mem_cons_of_mem _ hp))

/-- The methods pass keeps an absent-or-non-empty method map
absent or non-empty: the walker never creates an empty map. -/
theorem methodsPhase_shape (meta : Option (List (String × Option String))) :
    ∀ (l : List (String × Nat)) (t : CapTree),
    (t.methods = none ∨ ∃ p q, t.methods = some (p :: q)) →
    ((methodsPhase meta l t).methods = none ∨
      ∃ p q, (methodsPhase meta l t).methods = some (p :: q)) := by
  intro l
  induction l with
  | nil => intro t h; exact h
  | cons kv rest ih =>
    intro t h
    show (methodsPhase meta rest (methodStepP meta t kv.1 kv.2)).methods
        = none ∨ _
    apply ih
    cases t with
    | node n val ms os =>
      by_cases hl : startsLower kv.1
      · right
        simp only [methodStepP, hl, Bool.not_true, Bool.false_eq_true,
          if_false, CapTree.methods]
        obtain ⟨p, q, hpq⟩ :=
          List.exists_cons_of_ne_nil (jsSet_ne_nil (ms.getD []) kv.1
            ⟨kv.1, kv.2, metaType meta kv.1⟩)
        exact ⟨p, q, by rw [hpq]⟩
      · simpa [methodStepP, hl] using h

/-- The method map of any tree `walk` builds from a fresh node is either
absent (no lowercase-leading prototype key) or non-empty. -/
theorem walk_node_shape (d : JsDef) (k : String) (val : Option JsDef) :
    (walkDef d (.node k val none none)).methods = none ∨
    ∃ p q, (walkDef d (.node k val none none)).methods = some (p :: q) := by
  rw [walkDef_methods]
  exact methodsPhase_shape d.meta d.proto _ (Or.inl rfl)

/-- Patching `undefined` against any tree that `walk` can produce
throws a TypeError: either the methods map is absent and enumerating it
throws, or it is non-empty and reading the first method off `undefined`
throws. -/
theorem patch_undef_fails (t : CapTree)
    (h : t.methods = none ∨ ∃ p q, t.methods = some (p :: q)) :
    ∃ msg, patchRun CVal.undefined t = Except.error (JsError.typeError msg) := by
  cases t with
  | node n val ms os =>
    rcases h with h | ⟨p, q, h⟩
    · simp only [CapTree.methods] at h
      subst h
      exact ⟨_, rfl⟩
    · simp only [CapTree.methods] at h
      subst h
      exact ⟨"Cannot read properties of undefined", rfl⟩

/-- When a prototype has no lowercase-leading key, the methods pass
leaves the tree untouched. -/
theorem methodsPhase_all_skip
    (meta : Option (List (String × Option String))) :
    ∀ (l : List (String × Nat)) (t : CapTree),
    (∀ k ∈ l.map Prod.fst, startsLower k = false) →
    methodsPhase meta l t = t := by
  intro l
  induction l with
  | nil => intro t _; rfl
  | cons kv rest ih =>
    intro t h
    show methodsPhase meta rest (methodStepP meta t kv.1 kv.2) = t
    have hk : startsLower kv.1 = false :=
      h kv.1 (by simp)
    have hstep : methodStepP meta t kv.1 kv.2 = t := by
      cases t with
      | node n val ms os => simp [methodStepP, hk]
    rw [hstep]
    exact ih t (fun k hm => h k (List.mem_cons_of_mem _ hm))

/-! ## C1, C10: missing accessors and missing method maps -/

/-- C1 counterexample: a client whose declared nested capability
`Inner` has no live `inner` accessor. The claim says the subtree is
silently skipped and patching completes normally; instead `promisify`
throws a TypeError (the recursive `patch` call reads a method property
off `undefined`), so the call does not complete without error. -/
theorem missing_accessor_not_skipped_cex :
    promisifyRun (CVal.obj [("get", CVal.fnv 1)])
      (JsDef.mk "Client" [("get", 1)] none
        [("Inner", JsDef.mk "Inner" [("fetch", 2)] none [])]) =
    Except.error (JsError.typeError "Cannot read properties of undefined") :=
  rfl

/-- C1 amended: a nested capability whose lower-cased accessor is absent
(or explicitly `undefined`) on the live object is not skipped: the
recursive `patch` call receives `undefined` and throws a TypeError —
enumerating an absent methods map or reading a method off `undefined` —
so patching aborts with that error instead of completing. (The method
names of the current node must not coincide with the accessor, since
wrapping would create that property.) -/
theorem patch_missing_accessor_throws (fields : List (String × CVal))
    (n K : String) (val : Option JsDef) (sval : Option JsDef)
    (ms : List (String × MethodDesc)) (d : JsDef)
    (rest : List (String × CapTree))
    (hmiss : jsGet fields (jsToLower K) = none ∨
             jsGet fields (jsToLower K) = some CVal.undefined)
    (hfresh : ∀ p ∈ ms, p.2.name ≠ jsToLower K) :
    ∃ msg,
      patchRun (CVal.obj fields)
        (CapTree.node n val (some ms)
          (some ((K, walkDef d (CapTree.node K sval none none)) :: rest))) =
      Except.error (JsError.typeError msg) := by
  obtain ⟨f2, hrun, hget⟩ := patchMethods_obj ms fields
  have hf2 : jsGet f2 (jsToLower K) = jsGet fields (jsToLower K) :=
    hget _ hfresh
  have hsv : (jsGet f2 (jsToLower K)).getD CVal.undefined = CVal.undefined := by
    rcases hmiss with hmiss | hmiss <;> rw [hf2, hmiss] <;> rfl
  obtain ⟨msg, herr⟩ :=
    patch_undef_fails _ (walk_node_shape d K sval)
  refine ⟨msg, ?_⟩
  show patchRun _ _ = _
  simp only [patchRun, hrun]
  simp only [patchObjects, cvalGet, hsv, herr]

theorem patch_missing_accessor_throws_witness :
    ∃ msg,
      patchRun (CVal.obj [("get", CVal.fnv 1)])
        (CapTree.node "Client" none
          (some [("get", ⟨"get", 1, "callback"⟩)])
          (some [("Inner",
            walkDef (JsDef.mk "Inner" [("fetch", 2)] none [])
              (CapTree.node "Inner"
                (some (JsDef.mk "Inner" [("fetch", 2)] none []))
                none none))])) =
      Except.error (JsError.typeError msg) :=
  patch_missing_accessor_throws [("get", CVal.fnv 1)] "Client" "Inner"
    none (some (JsDef.mk "Inner" [("fetch", 2)] none []))
    [("get", ⟨"get", 1, "callback"⟩)]
    (JsDef.mk "Inner" [("fetch", 2)] none []) []
    (Or.inl rfl) (by decide)

/-- C10: when no operation name on the behavior surface starts with a
lowercase letter, the built tree node has no `methods` map at all (the
field is absent, not an empty map), and `promisify` on such an instance
throws a TypeError when the inner `patch` enumerates the missing map,
instead of completing as a no-op. -/
theorem no_lowercase_ops_typeerror (d : JsDef)
    (fields : List (String × CVal))
    (h : ∀ k ∈ d.proto.map Prod.fst, startsLower k = false) :
    (walkDef d (CapTree.node d.name none none none)).methods = none ∧
    promisifyRun (CVal.obj fields) d =
      Except.error
        (JsError.typeError "Cannot convert undefined or null to object") := by
  have hm : (walkDef d (CapTree.node d.name none none none)).methods
      = none := by
    rw [walkDef_methods, methodsPhase_all_skip d.meta d.proto _ h]
    rfl
  refine ⟨hm, ?_⟩
  have hpromis : promisifyRun (CVal.obj fields) d =
      patchRun (CVal.obj fields)
        (walkDef d (CapTree.node d.name none none none)) := rfl
  rw [hpromis]
  cases htree : walkDef d (CapTree.node d.name none none none) with
  | node nn vv mm oo =>
    rw [htree] at hm
    cases mm with
    | none => rfl
    | some l => exact absurd hm (by simp [CapTree.methods])

theorem no_lowercase_ops_typeerror_witness :
    (walkDef (JsDef.mk "Empty" [("Foo", 1)] none [])
      (CapTree.node (JsDef.mk "Empty" [("Foo", 1)] none []).name
        none none none)).methods = none ∧
    promisifyRun (CVal.obj [("x", CVal.fnv 0)])
        (JsDef.mk "Empty" [("Foo", 1)] none []) =
      Except.error
        (JsError.typeError "Cannot convert undefined or null to object") :=
  no_lowercase_ops_typeerror (JsDef.mk "Empty" [("Foo", 1)] none [])
    [("x", CVal.fnv 0)] (by decide)

/-! ## C4, C5, C2, C6: the dual-mode wrapper and the adapter -/

/-- C4: when the last supplied argument is invocable, the patched
operation is a pure pass-through — it has exactly the observable effect
of calling the unpatched original on the same instance with the same
arguments (same synchronous outcome, same callback invocation, no
future). -/
theorem patched_callback_path_passthrough (fn : List JsVal → OpBehavior)
    (args : List JsVal) (h : isFunctionTy (lastArgument args) = true) :
    patchedCall fn args = origCall fn args := by
  simp [patchedCall, origCall, h]

theorem patched_callback_path_passthrough_witness :
    isFunctionTy (lastArgument [JsVal.numv 1, JsVal.fnRef 5]) = true ∧
    patchedCall (fun _ => OpBehavior.callsBack JsVal.nullv (JsVal.numv 42))
        [JsVal.numv 1, JsVal.fnRef 5] =
      origCall (fun _ => OpBehavior.callsBack JsVal.nullv (JsVal.numv 42))
        [JsVal.numv 1, JsVal.fnRef 5] :=
  ⟨rfl, patched_callback_path_passthrough _ _ rfl⟩

/-- C5: when the last supplied argument is not invocable, the patched
operation returns a future; if the original operation, called with the
adapter's callback appended to the supplied arguments, passes `(e, d)`
to that callback, the future rejects with `e` when `e` is truthy and
resolves with `d` otherwise; nothing is thrown and no caller callback is
invoked. -/
theorem patched_promise_path_settles (fn : List JsVal → OpBehavior)
    (args : List JsVal) (e d : JsVal)
    (hlast : isFunctionTy (lastArgument args) = false)
    (hop : fn (args ++ [adapterCb]) = OpBehavior.callsBack e d) :
    patchedCall fn args =
      ⟨none, none,
        some (if jsTruthy e then .rejected e else .resolved d)⟩ := by
  simp [patchedCall, hlast, fromCallback, hop]

theorem patched_promise_path_settles_witness :
    isFunctionTy (lastArgument [JsVal.numv 7]) = false ∧
    (fun _ => OpBehavior.callsBack (JsVal.numv 0) (JsVal.numv 42) :
        List JsVal → OpBehavior) ([JsVal.numv 7] ++ [adapterCb]) =
      OpBehavior.callsBack (JsVal.numv 0) (JsVal.numv 42) ∧
    patchedCall (fun _ => OpBehavior.callsBack (JsVal.numv 0) (JsVal.numv 42))
        [JsVal.numv 7] =
      ⟨none, none,
        some (if jsTruthy (JsVal.numv 0) then .rejected (JsVal.numv 0)
              else .resolved (JsVal.numv 42))⟩ :=
  ⟨rfl, rfl, patched_promise_path_settles _ _ _ _ rfl rfl⟩

/-- C2 counterexample: the wrapped operation CAN throw synchronously out
of the wrapper on the callback path. With an original operation that
throws `"boom"` synchronously and a call whose last argument is a
function, the wrapper propagates the throw to its caller and the
original callback is never invoked — refuting that such an error is
delivered via the callback and never thrown synchronously. -/
theorem wrapper_sync_throw_escapes_cex :
    (patchedCall (fun _ => OpBehavior.throwsBefore (JsVal.strv "boom"))
        [JsVal.fnRef 7]).thrown = some (JsVal.strv "boom") ∧
    (patchedCall (fun _ => OpBehavior.throwsBefore (JsVal.strv "boom"))
        [JsVal.fnRef 7]).cbCall = none :=
  ⟨rfl, rfl⟩

/-- C2 amended: on the callback path the wrapper never adds a synchronous
throw of its own — its synchronous outcome is exactly that of the
unpatched original, and an error the operation reports through its
callback is delivered via the original callback with nothing thrown; a
synchronous throw by the operation itself, however, propagates out of
the wrapper exactly as it would unpatched. -/
theorem wrapper_callback_path_error_channel (fn : List JsVal → OpBehavior)
    (args : List JsVal) (h : isFunctionTy (lastArgument args) = true) :
    (patchedCall fn args).thrown = (origCall fn args).thrown ∧
    (patchedCall fn args).future = none ∧
    ∀ e d, fn args = OpBehavior.callsBack e d →
      (patchedCall fn args).cbCall = some (e, d) ∧
      (patchedCall fn args).thrown = none := by
  refine ⟨by simp [patchedCall, origCall, h], ?_, ?_⟩
  · simp only [patchedCall, h, if_true]
    cases fn args <;> simp [effectOf]
  · intro e d hed
    simp [patchedCall, h, hed, effectOf]

theorem wrapper_callback_path_error_channel_witness :
    (patchedCall (fun _ => OpBehavior.callsBack (JsVal.strv "bad") JsVal.undefined)
        [JsVal.fnRef 3]).cbCall = some (JsVal.strv "bad", JsVal.undefined) ∧
    (patchedCall (fun _ => OpBehavior.callsBack (JsVal.strv "bad") JsVal.undefined)
        [JsVal.fnRef 3]).thrown = none :=
  (wrapper_callback_path_error_channel
    (fun _ => OpBehavior.callsBack (JsVal.strv "bad") JsVal.undefined)
    [JsVal.fnRef 3] rfl).2.2 _ _ rfl

/-- C6: when the one-argument operation given to the adapter throws a
value `e` synchronously before ever invoking the callback it received,
the future rejects with exactly the thrown value instead of letting the
exception escape. -/
theorem adapt_sync_throw_rejects (fn : JsVal → OpBehavior) (e : JsVal)
    (h : fn adapterCb = OpBehavior.throwsBefore e) :
    fromCallback fn = Settlement.rejected e := by
  simp [fromCallback, h]

theorem adapt_sync_throw_rejects_witness :
    (fun _ => OpBehavior.throwsBefore (JsVal.strv "E") : JsVal → OpBehavior)
        adapterCb = OpBehavior.throwsBefore (JsVal.strv "E") ∧
    fromCallback (fun _ => OpBehavior.throwsBefore (JsVal.strv "E")) =
      Settlement.rejected (JsVal.strv "E") :=
  ⟨rfl, adapt_sync_throw_rejects _ _ rfl⟩

/-! ## C8: promisify requires a client -/

/-- C8: `promisify` called with an absent (falsy) instance throws
`Error('client required')` synchronously to its caller; the guard runs
before the tree is built or any patching happens, so the result is that
error and no patched client. -/
theorem promisify_requires_client (c : CVal) (d : JsDef)
    (h : cvalTruthy c = false) :
    promisifyRun c d = Except.error (JsError.errorMsg "client required") := by
  simp [promisifyRun, h]

theorem promisify_requires_client_witness :
    cvalTruthy CVal.undefined = false ∧
    promisifyRun CVal.undefined (JsDef.mk "T" [] none []) =
      Except.error (JsError.errorMsg "client required") :=
  ⟨rfl, promisify_requires_client _ _ rfl⟩

/-! ## C9: `build` does not mutate the definition (heap frame) -/

theorem jsGet_jsSet_self {α : Type} (m : List (String × α)) (k : String)
    (v : α) : jsGet (jsSet m k v) k = some v := by
  induction m with
  | nil => simp [jsSet, jsGet]
  | cons p rest ih =>
    simp only [jsSet]
    by_cases hp : (p.1 == k) = true
    · rw [if_pos hp]
      simp [jsGet]
    · rw [if_neg hp]
      simp only [jsGet]
      rw [if_neg hp]
      exact ih

theorem preserves_refl (lo : Nat) (h : Heap) : Preserves lo h h :=
  ⟨le_refl _, fun _ _ => rfl⟩

theorem preserves_trans {lo : Nat} {h1 h2 h3 : Heap}
    (a : Preserves lo h1 h2) (b : Preserves lo h2 h3) :
    Preserves lo h1 h3 :=
  ⟨le_trans a.1 b.1, fun x hx => (b.2 x hx).trans (a.2 x hx)⟩

theorem goodstep_refl (lo : Nat) (h : Heap) : GoodStep lo h h :=
  ⟨preserves_refl lo h, fun _ hg => hg⟩

theorem goodstep_trans {lo : Nat} {h1 h2 h3 : Heap}
    (a : GoodStep lo h1 h2) (b : GoodStep lo h2 h3) : GoodStep lo h1 h3 :=
  ⟨preserves_trans a.1 b.1, fun x hx => b.2 x (a.2 x hx)⟩

theorem hwrite_length (h : Heap) (a : Addr) (k : String) (v : HVal) :
    (hwrite h a k v).length = h.length := by
  simp [hwrite]

theorem hwrite_get?_ne (h : Heap) (a b : Addr) (k : String) (v : HVal)
    (hab : a ≠ b) : (hwrite h a k v).get? b = h.get? b :=
  List.get?_set_ne _ _ hab

theorem hgetObj_hwrite_ne (h : Heap) (a b : Addr) (k : String) (v : HVal)
    (hab : a ≠ b) : hgetObj (hwrite h a k v) b = hgetObj h b := by
  simp only [hgetObj]
  rw [hwrite_get?_ne h a b k v hab]

theorem hgetObj_hwrite_self (h : Heap) (a : Addr) (k : String) (v : HVal) :
    hgetObj (hwrite h a k v) a = jsSet (hgetObj h a) k v ∨
    hgetObj (hwrite h a k v) a = hgetObj h a := by
  by_cases ha : a < h.length
  · left
    simp only [hgetObj, hwrite]
    rw [List.get?_set_eq_of_lt _ ha]
    rfl
  · right
    simp only [hgetObj, hwrite]
    rw [show h.set a (jsSet ((h.get? a).getD []) k v) = h from
      List.set_eq_of_length_le (le_of_not_lt ha)]

theorem oget_jsSet_other (o : HObj) (k k2 : String) (v : HVal)
    (hne : k2 ≠ k) : oget (jsSet o k v) k2 = oget o k2 := by
  simp only [oget]
  rw [jsGet_jsSet_ne o k k2 v hne]

theorem treeGood_hwrite_high {lo : Nat} {h : Heap} {a : Addr} {k : String}
    {v : HVal} (hv : FieldHigh lo v) {t : Addr} (hg : TreeGood lo h t) :
    TreeGood lo (hwrite h a k v) t := by
  by_cases hat : a = t
  · subst hat
    rcases hgetObj_hwrite_self h a k v with he | he
    · constructor
      · rw [he]
        by_cases hk : ("methods" : String) = k
        · subst hk
          rw [show oget (jsSet (hgetObj h a) "methods" v) "methods" = v by
            simp [oget, jsGet_jsSet_self]]
          exact hv
        · rw [oget_jsSet_other _ _ _ _ hk]
          exact hg.1
      · rw [he]
        by_cases hk : ("objects" : String) = k
        · subst hk
          rw [show oget (jsSet (hgetObj h a) "objects" v) "objects" = v by
            simp [oget, jsGet_jsSet_self]]
          exact hv
        · rw [oget_jsSet_other _ _ _ _ hk]
          exact hg.2
    · constructor
      · rw [he]; exact hg.1
      · rw [he]; exact hg.2
  · constructor
    · rw [hgetObj_hwrite_ne h a t k v hat]; exact hg.1
    · rw [hgetObj_hwrite_ne h a t k v hat]; exact hg.2

theorem treeGood_hwrite_other {lo : Nat} {h : Heap} {a : Addr} {k : String}
    {v : HVal} (hk1 : k ≠ "methods") (hk2 : k ≠ "objects") {t : Addr}
    (hg : TreeGood lo h t) : TreeGood lo (hwrite h a k v) t := by
  by_cases hat : a = t
  · subst hat
    rcases hgetObj_hwrite_self h a k v with he | he
    · constructor
      · rw [he, oget_jsSet_other _ _ _ _ (fun hh => hk1 hh.symm)]
        exact hg.1
      · rw [he, oget_jsSet_other _ _ _ _ (fun hh => hk2 hh.symm)]
        exact hg.2
    · constructor
      · rw [he]; exact hg.1
      · rw [he]; exact hg.2
  · constructor
    · rw [hgetObj_hwrite_ne h a t k v hat]; exact hg.1
    · rw [hgetObj_hwrite_ne h a t k v hat]; exact hg.2

theorem preserves_hwrite (lo : Nat) (h : Heap) (a : Addr) (k : String)
    (v : HVal) (ha : lo ≤ a) : Preserves lo h (hwrite h a k v) := by
  refine ⟨le_of_eq (hwrite_length h a k v).symm, fun b hb => ?_⟩
  exact hwrite_get?_ne h a b k v (fun he => absurd (he ▸ ha) (not_le.mpr hb))

theorem goodstep_hwrite_high (lo : Nat) (h : Heap) (a : Addr) (k : String)
    (v : HVal) (ha : lo ≤ a) (hv : FieldHigh lo v) :
    GoodStep lo h (hwrite h a k v) :=
  ⟨preserves_hwrite lo h a k v ha, fun _ hg => treeGood_hwrite_high hv hg⟩

theorem goodstep_hwrite_other (lo : Nat) (h : Heap) (a : Addr) (k : String)
    (v : HVal) (ha : lo ≤ a) (hk1 : k ≠ "methods") (hk2 : k ≠ "objects") :
    GoodStep lo h (hwrite h a k v) :=
  ⟨preserves_hwrite lo h a k v ha,
    fun _ hg => treeGood_hwrite_other hk1 hk2 hg⟩

theorem hgetObj_halloc_self (h : Heap) (o : HObj) :
    hgetObj (h ++ [o]) h.length = o := by
  simp only [hgetObj]
  rw [List.get?_concat_length]
  rfl

theorem hgetObj_halloc_lt (h : Heap) (o : HObj) (a : Addr)
    (ha : a < h.length) : hgetObj (h ++ [o]) a = hgetObj h a := by
  simp only [hgetObj]
  rw [List.get?_append ha]

theorem hgetObj_halloc_gt (h : Heap) (o : HObj) (a : Addr)
    (ha : h.length < a) : hgetObj (h ++ [o]) a = hgetObj h a := by
  have h1 : (h ++ [o]).get? a = none :=
    List.get?_eq_none.mpr (by simp; omega)
  have h2 : h.get? a = none := List.get?_eq_none.mpr (by omega)
  simp only [hgetObj]
  rw [h1, h2]

theorem goodstep_halloc (lo : Nat) (h : Heap) (o : HObj)
    (hlen : lo ≤ h.length)
    (hm : FieldHigh lo (oget o "methods"))
    (ho : FieldHigh lo (oget o "objects")) :
    GoodStep lo h (h ++ [o]) := by
  refine ⟨⟨by simp, fun b hb => List.get?_append (lt_of_lt_of_le hb hlen)⟩,
    fun t hg => ?_⟩
  rcases Nat.lt_trichotomy t h.length with hta | hta | hta
  · exact ⟨by rw [hgetObj_halloc_lt h o t hta]; exact hg.1,
      by rw [hgetObj_halloc_lt h o t hta]; exact hg.2⟩
  · subst hta
    exact ⟨by rw [hgetObj_halloc_self]; exact hm,
      by rw [hgetObj_halloc_self]; exact ho⟩
  · exact ⟨by rw [hgetObj_halloc_gt h o t hta]; exact hg.1,
      by rw [hgetObj_halloc_gt h o t hta]; exact hg.2⟩


theorem fieldHigh_undef (lo : Nat) : FieldHigh lo .undefined := by
  intro a ha
  cases ha

theorem fieldHigh_ref (lo a : Nat) (ha : lo ≤ a) :
    FieldHigh lo (.ref a) := by
  intro b hb
  cases hb
  exact ha

theorem oget_pair_methods (x y : HVal) :
    oget [("name", x), ("value", y)] "methods" = .undefined := rfl

theorem oget_pair_objects (x y : HVal) :
    oget [("name", x), ("value", y)] "objects" = .undefined := rfl

theorem ensureMap_spec (lo : Nat) (h : Heap) (treeA : Addr) (field : String)
    (hlen : lo ≤ h.length) (ht : lo ≤ treeA)
    (hfield : FieldHigh lo (oget (hgetObj h treeA) field)) :
    GoodStep lo h (ensureMap h treeA field).1 ∧
    lo ≤ (ensureMap h treeA field).2 := by
  have hallocgoal :
      GoodStep lo h (hwrite (h ++ [[]]) treeA field (HVal.ref h.length)) ∧
      lo ≤ h.length := by
    refine ⟨goodstep_trans
      (goodstep_halloc lo h [] hlen (fieldHigh_undef lo) (fieldHigh_undef lo))
      (goodstep_hwrite_high lo (h ++ [[]]) treeA field (HVal.ref h.length)
        ht (fieldHigh_ref lo h.length hlen)), hlen⟩
  cases hov : oget (hgetObj h treeA) field with
  | ref a =>
    simp only [ensureMap, hov]
    exact ⟨goodstep_refl lo h, hfield a hov⟩
  | undefined =>
    simp only [ensureMap, hov, halloc]
    exact hallocgoal
  | hstr s2 =>
    simp only [ensureMap, hov, halloc]
    exact hallocgoal
  | hfn id =>
    simp only [ensureMap, hov, halloc]
    exact hallocgoal

theorem methodStepH_good (lo : Nat) (h : Heap) (objA pA treeA : Addr)
    (key : String) (hlen : lo ≤ h.length) (ht : lo ≤ treeA)
    (hg : TreeGood lo h treeA) :
    GoodStep lo h (methodStepH h objA pA treeA key) := by
  by_cases hl : startsLower key
  · obtain ⟨g1, hm1⟩ := ensureMap_spec lo h treeA "methods" hlen ht hg.1
    have hlen1 : lo ≤ (ensureMap h treeA "methods").1.length :=
      le_trans hlen g1.1.1
    have g2 : GoodStep lo (ensureMap h treeA "methods").1
        ((ensureMap h treeA "methods").1 ++
          [[("name", HVal.hstr key), ("value", oget (hgetObj h pA) key)]]) :=
      goodstep_halloc lo _ _ hlen1
        (by rw [oget_pair_methods]; exact fieldHigh_undef lo)
        (by rw [oget_pair_objects]; exact fieldHigh_undef lo)
    have g3 : GoodStep lo
        ((ensureMap h treeA "methods").1 ++
          [[("name", HVal.hstr key), ("value", oget (hgetObj h pA) key)]])
        (hwrite ((ensureMap h treeA "methods").1 ++
          [[("name", HVal.hstr key), ("value", oget (hgetObj h pA) key)]])
          (ensureMap h treeA "methods").2 key
          (HVal.ref (ensureMap h treeA "methods").1.length)) :=
      goodstep_hwrite_high lo _ _ _ _ hm1
        (fieldHigh_ref lo _ hlen1)
    simp only [methodStepH, hl, Bool.not_true, Bool.false_eq_true, if_false,
      halloc]
    refine goodstep_trans g1 (goodstep_trans g2 (goodstep_trans g3 ?_))
    exact goodstep_hwrite_other lo _ _ "type" _ hlen1
      (by decide) (by decide)
  · simp only [methodStepH, hl, Bool.not_false, if_true]
    exact goodstep_refl lo h

theorem methodFold_good (lo : Nat) (objA pA treeA : Addr) :
    ∀ (keys : List String) (h : Heap),
    lo ≤ h.length → lo ≤ treeA → TreeGood lo h treeA →
    GoodStep lo h
      (keys.foldl (fun h key => methodStepH h objA pA treeA key) h) := by
  intro keys
  induction keys with
  | nil => intro h _ _ _; exact goodstep_refl lo h
  | cons key rest ih =>
    intro h hlen ht hg
    have g1 := methodStepH_good lo h objA pA treeA key hlen ht hg
    have g2 := ih (methodStepH h objA pA treeA key)
      (le_trans hlen g1.1.1) ht (g1.2 _ hg)
    exact goodstep_trans g1 g2

theorem objPrepH_spec (lo : Nat) (h : Heap) (objA treeA : Addr)
    (key : String) (hu : startsUpper key = true)
    (hlen : lo ≤ h.length) (ht : lo ≤ treeA) (hg : TreeGood lo h treeA) :
    GoodStep lo h (objPrepH h objA treeA key).1 ∧
    lo ≤ (objPrepH h objA treeA key).2.2 ∧
    TreeGood lo (objPrepH h objA treeA key).1
      (objPrepH h objA treeA key).2.2 := by
  have hkm : key ≠ "methods" := fun he => by
    rw [he] at hu
    exact absurd hu (by decide)
  have hko : key ≠ "objects" := fun he => by
    rw [he] at hu
    exact absurd hu (by decide)
  obtain ⟨g1, hm1⟩ := ensureMap_spec lo h treeA "objects" hlen ht hg.2
  have hlen1 : lo ≤ (ensureMap h treeA "objects").1.length :=
    le_trans hlen g1.1.1
  have g2 : GoodStep lo (ensureMap h treeA "objects").1
      ((ensureMap h treeA "objects").1 ++
        [[("name", HVal.hstr key), ("value", oget (hgetObj h objA) key)]]) :=
    goodstep_halloc lo _ _ hlen1
      (by rw [oget_pair_methods]; exact fieldHigh_undef lo)
      (by rw [oget_pair_objects]; exact fieldHigh_undef lo)
  have g3 : GoodStep lo
      ((ensureMap h treeA "objects").1 ++
        [[("name", HVal.hstr key), ("value", oget (hgetObj h objA) key)]])
      (hwrite ((ensureMap h treeA "objects").1 ++
        [[("name", HVal.hstr key), ("value", oget (hgetObj h objA) key)]])
        (ensureMap h treeA "objects").2 key
        (HVal.ref (ensureMap h treeA "objects").1.length)) :=
    goodstep_hwrite_high lo _ _ _ _ hm1 (fieldHigh_ref lo _ hlen1)
  have hfresh : TreeGood lo
      ((ensureMap h treeA "objects").1 ++
        [[("name", HVal.hstr key), ("value", oget (hgetObj h objA) key)]])
      (ensureMap h treeA "objects").1.length := by
    constructor
    · rw [hgetObj_halloc_self, oget_pair_methods]
      exact fieldHigh_undef lo
    · rw [hgetObj_halloc_self, oget_pair_objects]
      exact fieldHigh_undef lo
  refine ⟨?_, ?_, ?_⟩
  · simp only [objPrepH, halloc]
    exact goodstep_trans g1 (goodstep_trans g2 g3)
  · simp only [objPrepH, halloc]
    exact hlen1
  · simp only [objPrepH, halloc]
    exact treeGood_hwrite_other hkm hko hfresh

theorem walkHF_good (lo : Nat) : ∀ (fuel : Nat),
    (∀ (h : Heap) (objA treeA : Addr) (h2 : Heap),
      walkHF fuel h (.body objA treeA) = some h2 →
      lo ≤ h.length → lo ≤ treeA → TreeGood lo h treeA →
      GoodStep lo h h2) ∧
    (∀ (h : Heap) (objA treeA : Addr) (keys : List String) (h2 : Heap),
      walkHF fuel h (.objsPass objA treeA keys) = some h2 →
      lo ≤ h.length → lo ≤ treeA → TreeGood lo h treeA →
      GoodStep lo h h2) := by
  intro fuel
  induction fuel with
  | zero =>
    constructor
    · intro h objA treeA h2 hrun
      exact absurd hrun (by simp [walkHF])
    · intro h objA treeA keys h2 hrun
      exact absurd hrun (by simp [walkHF])
  | succ f ih =>
    constructor
    · intro h objA treeA h2 hrun hlen ht hg
      cases hpv : oget (hgetObj h objA) "prototype" with
      | ref pA =>
        simp only [walkHF, hpv] at hrun
        have hfold := methodFold_good lo objA pA treeA
          ((hgetObj h pA).map Prod.fst) h hlen ht hg
        exact goodstep_trans hfold
          (ih.2 _ objA treeA _ h2 hrun (le_trans hlen hfold.1.1) ht
            (hfold.2 _ hg))
      | undefined =>
        simp only [walkHF, hpv] at hrun
        exact Option.noConfusion hrun
      | hstr s2 =>
        simp only [walkHF, hpv] at hrun
        exact Option.noConfusion hrun
      | hfn id =>
        simp only [walkHF, hpv] at hrun
        exact Option.noConfusion hrun
    · intro h objA treeA keys h2 hrun hlen ht hg
      cases keys with
      | nil =>
        simp only [walkHF] at hrun
        injection hrun with hh
        subst hh
        exact goodstep_refl lo h
      | cons key rest =>
        by_cases hu : startsUpper key = true
        · cases hv : (objPrepH h objA treeA key).2.1 with
          | ref vA =>
            simp only [walkHF, hu, if_true, hv] at hrun
            obtain ⟨g1, hnA, hgn⟩ := objPrepH_spec lo h objA treeA key hu
              hlen ht hg
            cases hrec : walkHF f (objPrepH h objA treeA key).1
                (.body vA (objPrepH h objA treeA key).2.2) with
            | some h4 =>
              simp only [hrec] at hrun
              have grec := ih.1 _ vA _ h4 hrec (le_trans hlen g1.1.1)
                hnA hgn
              have gcomb := goodstep_trans g1 grec
              have grest := ih.2 h4 objA treeA rest h2 hrun
                (le_trans hlen gcomb.1.1) ht (gcomb.2 _ hg)
              exact goodstep_trans gcomb grest
            | none =>
              simp only [hrec] at hrun
              exact Option.noConfusion hrun
          | undefined =>
            simp only [walkHF, hu, if_true, hv] at hrun
            exact Option.noConfusion hrun
          | hstr s2 =>
            simp only [walkHF, hu, if_true, hv] at hrun
            exact Option.noConfusion hrun
          | hfn id =>
            simp only [walkHF, hu, if_true, hv] at hrun
            exact Option.noConfusion hrun
        · simp only [walkHF] at hrun
          rw [if_neg hu] at hrun
          exact ih.2 h objA treeA rest h2 hrun hlen ht hg

/-- The common frame fact for both build entries: walking a definition
into a freshly allocated tree node leaves every pre-existing heap cell
untouched. -/
theorem walk_fresh_frame (fuel : Nat) (h : Heap) (defA : Addr) (o : HObj)
    (hm : oget o "methods" = .undefined) (ho2 : oget o "objects" = .undefined)
    (h2 : Heap)
    (hw : walkHF fuel (h ++ [o]) (.body defA h.length) = some h2) :
    ∀ a, a < h.length → h2.get? a = h.get? a := by
  have hg : TreeGood h.length (h ++ [o]) h.length := by
    constructor
    · rw [hgetObj_halloc_self, hm]
      exact fieldHigh_undef _
    · rw [hgetObj_halloc_self, ho2]
      exact fieldHigh_undef _
  have hgood := (walkHF_good h.length fuel).1 (h ++ [o]) defA h.length h2
    hw (by simp) (le_refl _) hg
  intro a ha
  rw [hgood.1.2 a ha, List.get?_append ha]

/-- C9: `build` does not mutate the definition: at its public arities
(1 and 2), every heap cell that existed before the call — the definition
object, its prototype object, its metadata map and every nested
definition — is identical after the call; the returned tree is a freshly
allocated object (its address is the old heap bound), and in the pure
embedding the built tree is a function of the definition value and the
supplied name alone. -/
theorem build_no_mutation (fuel : Nat) (h : Heap) (defA : Addr)
    (nm : String) (d : JsDef) (r1 r2 : Heap × Addr)
    (hb1 : buildH1 fuel h defA = some r1)
    (hb2 : buildH2 fuel h defA nm = some r2) :
    (∀ a, a < h.length → r1.1.get? a = h.get? a) ∧
    (∀ a, a < h.length → r2.1.get? a = h.get? a) ∧
    r1.2 = h.length ∧ r2.2 = h.length ∧
    walkCall (WalkArgs.a2 d nm) =
      Except.ok (walkDef d (CapTree.node nm none none none)) := by
  simp only [buildH1, halloc] at hb1
  simp only [buildH2, halloc] at hb2
  cases hw1 : walkHF fuel (h ++ [[("name", oget (hgetObj h defA) "name")]])
      (.body defA h.length) with
  | none =>
    simp only [hw1] at hb1
    exact Option.noConfusion hb1
  | some hh1 =>
    simp only [hw1] at hb1
    cases hw2 : walkHF fuel (h ++ [[("name", HVal.hstr nm)]])
        (.body defA h.length) with
    | none =>
      simp only [hw2] at hb2
      exact Option.noConfusion hb2
    | some hh2 =>
      simp only [hw2] at hb2
      injection hb1 with hb1e
      injection hb2 with hb2e
      subst hb1e
      subst hb2e
      refine ⟨?_, ?_, rfl, rfl, rfl⟩
      · exact walk_fresh_frame fuel h defA
          [("name", oget (hgetObj h defA) "name")] rfl rfl hh1 hw1
      · exact walk_fresh_frame fuel h defA
          [("name", HVal.hstr nm)] rfl rfl hh2 hw2

theorem build_no_mutation_witness :
    demoRes1.1.get? 0 = demoHeap.get? 0 ∧
    demoRes1.1.get? 2 = demoHeap.get? 2 ∧
    demoRes2.1.get? 0 = demoHeap.get? 0 ∧
    demoRes1.2 = demoHeap.length := by
  have hb1 : buildH1 9 demoHeap 0 = some demoRes1 := rfl
  have hb2 : buildH2 9 demoHeap 0 "N" = some demoRes2 := rfl
  have hc := build_no_mutation 9 demoHeap 0 "N" (JsDef.mk "C" [] none [])
    demoRes1 demoRes2 hb1 hb2
  exact ⟨hc.1 0 (by decide), hc.1 2 (by decide), hc.2.1 0 (by decide),
    hc.2.2.1⟩

end Papi
